import Mathlib

/-!
Shallow embedding of the collection-and-persistence pipeline of the
job-market-analysis tool (src/database_manager.py and src/job_scraper.py),
with theorems checking the specification's claims about it.

The store (SQLite table `job_postings`) is modelled as a list of rows plus
the AUTOINCREMENT counter; the merge utility's file system as a list of
(path, optional contents) pairs; the scrapers' page loop as a recursion over
page indices driven by an abstract per-page fetch outcome.
-/

set_option maxRecDepth 8000

/-- The identity key used for duplicate detection:
`(job_title, company, location)`. -/
abbrev Key := String × String × String

/-- The canonical job-posting record: the nine columns an adapter produces
(matching the `job_postings` schema of database_manager.py minus the
store-assigned `id` and `created_at`). -/
structure Record where
  job_title : String
  company : String
  location : String
  description : String
  salary : String
  experience_level : String
  posted_date : String
  source : String
  scraped_at : String
  deriving DecidableEq, Repr

/-- The identity key of a record. -/
def keyOf (r : Record) : Key := (r.job_title, r.company, r.location)

/-- A stored row: the record plus the store-assigned `id`
(INTEGER PRIMARY KEY AUTOINCREMENT) and `created_at`
(DEFAULT CURRENT_TIMESTAMP). -/
structure Row where
  id : Nat
  record : Record
  created_at : String
  deriving DecidableEq, Repr

/-- The store state: the `job_postings` table (rows in insertion order) and
the next AUTOINCREMENT id. -/
structure DB where
  rows : List Row
  nextId : Nat
  deriving DecidableEq, Repr

/-- The identity key of a stored row. -/
def rowKey (r : Row) : Key := keyOf r.record

/-- The rows a batch of records becomes: consecutive AUTOINCREMENT ids
starting at `nid`, all stamped with the insertion time `now`. -/
def assignIds (nid : Nat) (now : String) : List Record → List Row
  | [] => []
  | r :: rs => ⟨nid, r, now⟩ :: assignIds (nid + 1) now rs

/-- `JobDatabase.insert_jobs`: appends every record of the batch as a new row
(pandas `to_sql` with if_exists=append); performs no duplicate check. -/
def insert_jobs (db : DB) (recs : List Record) (now : String) : DB :=
  ⟨db.rows ++ assignIds db.nextId now recs, db.nextId + recs.length⟩

/-- `JobDatabase.get_all_jobs`: SELECT * FROM job_postings. -/
def get_all_jobs (db : DB) : List Row :=
  db.rows

/-- One row INSERT. -/
def insertOne (db : DB) (r : Record) (now : String) : DB :=
  ⟨db.rows ++ [⟨db.nextId, r, now⟩], db.nextId + 1⟩

/-- The row-by-row execution of the batch INSERT inside the single
transaction pandas `to_sql` opens; `failAt = some i` means the INSERT of the
i-th record raises, `none` that every INSERT succeeds. -/
def execInserts (db : DB) (now : String) : List Record → Option Nat → Option DB
  | [], _ => some db
  | _ :: _, some 0 => none
  | r :: rs, some (i + 1) => execInserts (insertOne db r now) now rs (some i)
  | r :: rs, none => execInserts (insertOne db r now) now rs none

/-- `JobDatabase.insert_jobs` as executed: all row INSERTs run inside one
transaction, which is committed on success and rolled back (leaving the
pre-call state) when any INSERT raises. The Bool reports success. -/
def insert_jobs_tx (db : DB) (recs : List Record) (now : String)
    (failAt : Option Nat) : DB × Bool :=
  match execInserts db now recs failAt with
  | some st => (st, true)
  | none => (db, false)

/-- SQL MIN over a list of ids. -/
def minOfIds : List Nat → Option Nat
  | [] => none
  | i :: is =>
    match minOfIds is with
    | none => some i
    | some m => some (Nat.min i m)

/-- SELECT MIN(id) FROM job_postings GROUP BY job_title, company, location,
evaluated for the group with key `k`. -/
def groupMinId (rows : List Row) (k : Key) : Option Nat :=
  minOfIds ((rows.filter (fun r => rowKey r = k)).map Row.id)

/-- DELETE FROM job_postings WHERE id NOT IN
(SELECT MIN(id) ... GROUP BY job_title, company, location): a row survives
iff its id is the MIN(id) of some group. -/
def keptRow (rows : List Row) (r : Row) : Bool :=
  rows.any (fun s => groupMinId rows (rowKey s) = some r.id)

/-- `JobDatabase.remove_duplicates`: deletes every non-kept row and returns
the new state together with `cursor.rowcount`, the number of rows deleted. -/
def remove_duplicates (db : DB) : DB × Nat :=
  (⟨db.rows.filter (keptRow db.rows), db.nextId⟩,
    db.rows.length - (db.rows.filter (keptRow db.rows)).length)

/-- pandas `drop_duplicates(subset=['job_title','company','location'])`:
keep the first occurrence of each key, preserving order; `seen` holds the
keys already kept. -/
def dropDupAux (seen : List Key) : List Record → List Record
  | [] => []
  | r :: rs =>
    if keyOf r ∈ seen then dropDupAux seen rs
    else r :: dropDupAux (keyOf r :: seen) rs

/-- `merged_df.drop_duplicates(subset=['job_title','company','location'])`. -/
def drop_duplicates (l : List Record) : List Record :=
  dropDupAux [] l

/-- `merge_multiple_sources`. Input: the (path, contents) pairs, `none` for
a path that does not exist. Output: the missing paths warned about, and
`some (merged, removed)` when at least one file was read — the merged
records are then written to the output path — or `none` when no file was
read, in which case nothing is written at all. -/
def merge_multiple_sources (files : List (String × Option (List Record))) :
    List String × Option (List Record × Nat) :=
  let warnings := (files.filter (fun f => f.2.isNone)).map Prod.fst
  let all_dfs := files.filterMap Prod.snd
  if all_dfs.isEmpty then (warnings, none)
  else
    let merged := all_dfs.flatten
    (warnings,
      some (drop_duplicates merged, merged.length - (drop_duplicates merged).length))

/-- The outcome of one page request (`requests.get`): HTTP 200 with the
listing fragments `soup.find_all` locates on the page, a non-success HTTP
status, or a raised network error. -/
inductive FetchResult (α : Type) where
  | success : List α → FetchResult α
  | httpError : Nat → FetchResult α
  | netError : String → FetchResult α
  deriving DecidableEq, Repr

/-- The page loop shared by `IndeedScraper.scrape_jobs` and
`BaytScraper.scrape_jobs`: starting at `page` and for at most `n` more
pages, request the page; on HTTP 200 with no listing fragments, on a
non-success status, or on a raised network error, leave the loop (the
exception is caught, so nothing propagates to the caller); otherwise parse
each fragment — a fragment whose parse fails is skipped — append the parsed
records to the accumulator `self.jobs`, and continue with the next page.
Returns the whole accumulator together with the pages actually requested. -/
def scrape_pages {α : Type} (fetch : Nat → FetchResult α)
    (parse : α → Option Record) : Nat → Nat → List Record → List Record × List Nat
  | _, 0, jobs => (jobs, [])
  | page, n + 1, jobs =>
    match fetch page with
    | .success cards =>
      if cards.isEmpty then (jobs, [page])
      else
        let rest := scrape_pages fetch parse (page + 1) n (jobs ++ cards.filterMap parse)
        (rest.1, page :: rest.2)
    | .httpError _ => (jobs, [page])
    | .netError _ => (jobs, [page])

/-- `IndeedScraper.scrape_jobs`: `for page in range(max_pages)` — page
indices 0, 1, ..., max_pages-1 — with `jobs` the accumulator `self.jobs`
the instance holds when the call starts. -/
def IndeedScraper.scrape_jobs {α : Type} (fetch : Nat → FetchResult α)
    (parse : α → Option Record) (max_pages : Nat) (jobs : List Record) :
    List Record × List Nat :=
  scrape_pages fetch parse 0 max_pages jobs

/-- `BaytScraper.scrape_jobs`: `for page in range(1, max_pages + 1)` — page
indices 1, ..., max_pages. -/
def BaytScraper.scrape_jobs {α : Type} (fetch : Nat → FetchResult α)
    (parse : α → Option Record) (max_pages : Nat) (jobs : List Record) :
    List Record × List Nat :=
  scrape_pages fetch parse 1 max_pages jobs

/-- Python's whitespace class on the ASCII range — the characters
`re.sub(r"\s+", ...)` and `str.strip()` treat as whitespace. -/
def isPySpace (c : Char) : Bool :=
  c = ' ' || c = '\t' || c = '\n' || c = '\r' || c = '\x0b' || c = '\x0c'

/-- `re.sub(r"\s+", " ", text)`: replace each maximal whitespace run by one
space; `inRun` records whether the previous character was whitespace (so the
run already emitted its space). -/
def collapseAux : Bool → List Char → List Char
  | _, [] => []
  | inRun, c :: cs =>
    if isPySpace c then
      if inRun then collapseAux true cs else ' ' :: collapseAux true cs
    else c :: collapseAux false cs

/-- Left part of `str.strip()`. -/
def lstrip (s : List Char) : List Char := s.dropWhile isPySpace

/-- Right part of `str.strip()`. -/
def rstrip (s : List Char) : List Char := (s.reverse.dropWhile isPySpace).reverse

/-- `str.strip()`. -/
def strip (s : List Char) : List Char := rstrip (lstrip s)

/-- `JobScraper.clean_text`; `none` models an absent (None) argument, which
Python's `if not text` treats like the empty string. -/
def clean_text : Option (List Char) → List Char
  | none => []
  | some s => if s.isEmpty then [] else strip (collapseAux false s)

/-- Modelled from the spec for C8 only (compared against `clean_text`): the
whitespace-delimited words of the input, in order. -/
def wordsOf : List Char → List (List Char)
  | [] => []
  | c :: cs =>
    if isPySpace c then wordsOf cs
    else (c :: cs.takeWhile (fun d => !isPySpace d)) ::
      wordsOf (cs.dropWhile (fun d => !isPySpace d))
termination_by s => s.length
decreasing_by
  · simp
  · simp only [List.length_cons]
    exact Nat.lt_succ_of_le (List.IsSuffix.sublist (List.dropWhile_suffix _)).length_le

/-- Joining words with single spaces (for the spec-side clean). -/
def joinWords : List (List Char) → List Char
  | [] => []
  | [w] => w
  | w :: ws => w ++ ' ' :: joinWords ws

/-- Modelled from the spec for C8 only: "collapses all whitespace runs to a
single space and trims" — the words joined by single spaces. -/
def specClean (s : List Char) : List Char :=
  joinWords (wordsOf s)

/-! ### Concrete fixtures for witnesses and counterexamples -/

/-- "Data Scientist" at company X in Riyadh. -/
def recDS : Record :=
  ⟨"Data Scientist", "X", "Riyadh", "", "", "", "2024-01-01", "Indeed",
    "2024-01-01 00:00:00"⟩

/-- A second record with the same identity key as `recDS` but different
non-key fields. -/
def recDS2 : Record :=
  ⟨"Data Scientist", "X", "Riyadh", "a different description", "", "", "2024-01-02",
    "Bayt", "2024-01-02 00:00:00"⟩

/-- A record with a distinct identity key. -/
def recDA : Record :=
  ⟨"Data Analyst", "Y", "Jeddah", "", "", "", "2024-01-01", "Indeed",
    "2024-01-01 00:00:00"⟩

/-- A fresh, empty store (SQLite assigns the first row id 1). -/
def emptyDB : DB := ⟨[], 1⟩

/-- The end-to-end scenario store: 3 inserted records, two sharing the
identity key `("Data Scientist", "X", "Riyadh")`. -/
def dbScenario : DB := insert_jobs emptyDB [recDS, recDS2, recDA] "2024-01-02 12:00:00"

/-- Fetch behaviour with an HTTP error on the second page: page 0 succeeds
with one listing, every later page returns HTTP 403. -/
def fetchErrAt1 : Nat → FetchResult Record :=
  fun p => if p = 0 then .success [recDS] else .httpError 403

/-- Fetch behaviour with an empty second page: page 0 succeeds with one
listing fragment, every later page succeeds with none. -/
def fetchEmptyAt1 : Nat → FetchResult Nat :=
  fun p => if p = 0 then .success [0] else .success []

/-- A parse that fails on every fragment (malformed markup everywhere). -/
def parseNone : Nat → Option Record := fun _ => none

/-! ### Store lemmas -/

theorem assignIds_map_record (now : String) :
    ∀ (l : List Record) (nid : Nat), (assignIds nid now l).map Row.record = l := by
  intro l
  induction l with
  | nil => intro nid; rfl
  | cons r rs ih => intro nid; simp [assignIds, ih]

theorem assignIds_length (now : String) :
    ∀ (l : List Record) (nid : Nat), (assignIds nid now l).length = l.length := by
  intro l
  induction l with
  | nil => intro nid; rfl
  | cons r rs ih => intro nid; simp [assignIds, ih]

theorem insert_jobs_nil (db : DB) (now : String) : insert_jobs db [] now = db := by
  simp [insert_jobs, assignIds]

theorem insert_jobs_cons (db : DB) (r : Record) (rs : List Record) (now : String) :
    insert_jobs (insertOne db r now) rs now = insert_jobs db (r :: rs) now := by
  simp [insert_jobs, insertOne, assignIds, List.length_cons]
  omega

theorem execInserts_some (recs : List Record) :
    ∀ (db : DB) (failAt : Option Nat) (st : DB) (now : String),
      execInserts db now recs failAt = some st → st = insert_jobs db recs now := by
  induction recs with
  | nil =>
    intro db failAt st now h
    simp [execInserts] at h
    rw [← h, insert_jobs_nil]
  | cons r rs ih =>
    intro db failAt st now h
    match failAt with
    | some 0 => simp [execInserts] at h
    | some (i + 1) =>
      have := ih (insertOne db r now) (some i) st now h
      rw [this, insert_jobs_cons]
    | none =>
      have := ih (insertOne db r now) none st now h
      rw [this, insert_jobs_cons]

/-- C5: insertBatch is atomic as a unit — for every store state, batch and
failure point, the transactional insert either appends the whole batch and
reports success, or leaves the store exactly as before the call; no
execution commits a strict, non-empty subset of the batch. -/
theorem C5_insertBatch_atomic (db : DB) (recs : List Record) (now : String)
    (failAt : Option Nat) :
    insert_jobs_tx db recs now failAt = (insert_jobs db recs now, true) ∨
    insert_jobs_tx db recs now failAt = (db, false) := by
  unfold insert_jobs_tx
  cases h : execInserts db now recs failAt with
  | none => right; rfl
  | some st => left; rw [execInserts_some recs db failAt st now h]

/-- C6: insertBatch followed by queryAll yields the prior rows followed by
one new row per batch record, with the record fields unchanged
(`map Row.record` of the new rows is the batch itself), and the row count
always grows by the full batch size — no duplicate checking. -/
theorem C6_insertBatch_then_queryAll (db : DB) (recs : List Record) (now : String) :
    get_all_jobs (insert_jobs db recs now) = db.rows ++ assignIds db.nextId now recs ∧
    (assignIds db.nextId now recs).map Row.record = recs ∧
    (get_all_jobs (insert_jobs db recs now)).length = (get_all_jobs db).length + recs.length := by
  refine ⟨rfl, assignIds_map_record now recs db.nextId, ?_⟩
  simp [get_all_jobs, insert_jobs, assignIds_length]

/-! ### Scraper page-loop lemmas -/

/-- The accumulator only grows: the loop returns the initial accumulator
with some tail appended. -/
theorem scrape_pages_extends {α : Type} (fetch : Nat → FetchResult α)
    (parse : α → Option Record) :
    ∀ (n page : Nat) (jobs : List Record),
      ∃ t, (scrape_pages fetch parse page n jobs).1 = jobs ++ t := by
  intro n
  induction n with
  | zero => intro page jobs; exact ⟨[], by simp [scrape_pages]⟩
  | succ n ih =>
    intro page jobs
    cases hf : fetch page with
    | success cards =>
      by_cases hc : cards.isEmpty
      · exact ⟨[], by simp [scrape_pages, hf, hc]⟩
      · obtain ⟨t, ht⟩ := ih (page + 1) (jobs ++ cards.filterMap parse)
        exact ⟨cards.filterMap parse ++ t, by simp [scrape_pages, hf, hc, ht]⟩
    | httpError s => exact ⟨[], by simp [scrape_pages, hf]⟩
    | netError e => exact ⟨[], by simp [scrape_pages, hf]⟩

/-- A fetch outcome on which the page loop stops: HTTP 200 with no listing
fragments, a non-success status, or a raised network error. -/
def stopsLoop {α : Type} : FetchResult α → Bool
  | .success cards => cards.isEmpty
  | .httpError _ => true
  | .netError _ => true

/-- A fetch outcome that is a failure (non-success status or network
error). -/
def isFetchFailure {α : Type} : FetchResult α → Bool
  | .success _ => false
  | .httpError _ => true
  | .netError _ => true

/-- If pages `start .. start+k-1` succeed with fragments and the loop stops
at page `start+k` (still within range), the loop returns the initial
accumulator followed by exactly the parsed records of the `k` earlier pages,
and requests exactly pages `start .. start+k`. -/
theorem scrape_pages_stops {α : Type} (fetch : Nat → FetchResult α)
    (parse : α → Option Record) :
    ∀ (k : Nat) (cards : Nat → List α) (start n : Nat) (jobs : List Record),
      (∀ j < k, fetch (start + j) = .success (cards j) ∧ (cards j).isEmpty = false) →
      stopsLoop (fetch (start + k)) = true → k < n →
      (scrape_pages fetch parse start n jobs).1 =
        jobs ++ ((List.range k).map (fun j => (cards j).filterMap parse)).flatten ∧
      (scrape_pages fetch parse start n jobs).2 = List.range' start (k + 1) := by
  intro k
  induction k with
  | zero =>
    intro cards start n jobs _ hstop hk
    match n, hk with
    | n + 1, _ =>
      cases hf : fetch start with
      | success cards' =>
        rw [Nat.add_zero] at hstop
        rw [hf] at hstop
        simp only [stopsLoop] at hstop
        simp [scrape_pages, hf, hstop, List.range'_one]
      | httpError s => simp [scrape_pages, hf, List.range'_one]
      | netError e => simp [scrape_pages, hf, List.range'_one]
  | succ k ih =>
    intro cards start n jobs hsucc hstop hk
    match n, hk with
    | n + 1, hk =>
      have h0 := hsucc 0 (Nat.succ_pos k)
      rw [Nat.add_zero] at h0
      have hrec := ih (fun j => cards (j + 1)) (start + 1) n
        (jobs ++ (cards 0).filterMap parse)
        (fun j hj => by
          have h := hsucc (j + 1) (Nat.succ_lt_succ hj)
          rwa [show start + (j + 1) = start + 1 + j by omega] at h)
        (by rwa [show start + (k + 1) = start + 1 + k by omega] at hstop)
        (Nat.lt_of_succ_lt_succ hk)
      have heq : scrape_pages fetch parse start (n + 1) jobs =
          ((scrape_pages fetch parse (start + 1) n (jobs ++ (cards 0).filterMap parse)).1,
            start :: (scrape_pages fetch parse (start + 1) n
              (jobs ++ (cards 0).filterMap parse)).2) := by
        simp [scrape_pages, h0.1, h0.2]
      rw [heq]
      constructor
      · rw [hrec.1, List.range_succ_eq_map]
        simp only [List.map_cons, List.map_map, List.flatten_cons, List.append_assoc]
        rfl
      · rw [hrec.2]
        show start :: List.range' (start + 1) (k + 1) = List.range' start (k + 1 + 1)
        simp [List.range'_succ]

/-- C9: scrape only appends to the instance accumulator `self.jobs` and
returns the whole accumulator, never a per-call sequence: a first call
returns the initial accumulator plus a tail, and a second call on the same
instance (which starts from the first call's result) returns that entire
result plus a further tail — so records collected by earlier calls are
included in every later call's return value and the accumulator never
shrinks; only a fresh instance (`jobs = []`) starts empty. -/
theorem C9_accumulator_monotone {α : Type} (fetch₁ fetch₂ : Nat → FetchResult α)
    (parse₁ parse₂ : α → Option Record) (s₁ n₁ s₂ n₂ : Nat) (jobs : List Record) :
    ∃ t₁ t₂,
      (scrape_pages fetch₁ parse₁ s₁ n₁ jobs).1 = jobs ++ t₁ ∧
      (scrape_pages fetch₂ parse₂ s₂ n₂ ((scrape_pages fetch₁ parse₁ s₁ n₁ jobs).1)).1 =
        (scrape_pages fetch₁ parse₁ s₁ n₁ jobs).1 ++ t₂ := by
  obtain ⟨t₁, h₁⟩ := scrape_pages_extends fetch₁ parse₁ n₁ s₁ jobs
  obtain ⟨t₂, h₂⟩ :=
    scrape_pages_extends fetch₂ parse₂ n₂ s₂ ((scrape_pages fetch₁ parse₁ s₁ n₁ jobs).1)
  exact ⟨t₁, t₂, h₁, h₂⟩

/-- C3: if every page before the k-th succeeds with listings and the fetch
of page `start+k` returns a non-success HTTP status or raises a network
error, the loop stops at that point and scrape returns the accumulator with
exactly the records of the earlier pages — nothing is discarded and, the
model being a total function, no exception reaches the caller; the failing
page is the last one requested. -/
theorem C3_partial_results_on_fetch_failure {α : Type} (fetch : Nat → FetchResult α)
    (parse : α → Option Record) (cards : Nat → List α) (start k n : Nat)
    (jobs : List Record)
    (hsucc : ∀ j < k, fetch (start + j) = .success (cards j) ∧ (cards j).isEmpty = false)
    (hfail : isFetchFailure (fetch (start + k)) = true) (hk : k < n) :
    (scrape_pages fetch parse start n jobs).1 =
      jobs ++ ((List.range k).map (fun j => (cards j).filterMap parse)).flatten ∧
    (scrape_pages fetch parse start n jobs).2 = List.range' start (k + 1) := by
  apply scrape_pages_stops fetch parse k cards start n jobs hsucc ?_ hk
  cases hf : fetch (start + k) with
  | success cards' => rw [hf] at hfail; simp [isFetchFailure] at hfail
  | httpError s => simp [stopsLoop]
  | netError e => simp [stopsLoop]

/-- Witness for C3: Indeed adapter, max_pages = 3, HTTP 403 on the second
page — scrape returns only page 0's record and requests pages 0 and 1. -/
theorem C3_witness :
    (IndeedScraper.scrape_jobs fetchErrAt1 some 3 []).1 = [recDS] ∧
    (IndeedScraper.scrape_jobs fetchErrAt1 some 3 []).2 = [0, 1] := by
  have h := C3_partial_results_on_fetch_failure fetchErrAt1 some (fun _ => [recDS])
    0 1 3 []
    (fun j hj => by
      have hj0 : j = 0 := by omega
      subst hj0
      exact ⟨rfl, rfl⟩)
    rfl (by omega)
  constructor
  · show (scrape_pages fetchErrAt1 some 0 3 []).1 = [recDS]
    rw [h.1]; decide
  · show (scrape_pages fetchErrAt1 some 0 3 []).2 = [0, 1]
    rw [h.2]; decide

/-- Counterexample to C7 as stated: the fetch of page 0 succeeds and yields
one listing fragment, which fails to parse — the page therefore yields zero
parseable listing fragments — yet the loop does not halt there: a request is
issued for page 1 as well. -/
theorem C7_counterexample :
    fetchEmptyAt1 0 = FetchResult.success [0] ∧
    [0].filterMap parseNone = [] ∧
    (IndeedScraper.scrape_jobs fetchEmptyAt1 parseNone 2 []).2 = [0, 1] :=
  ⟨rfl, rfl, rfl⟩

/-- C7 (amended): if every page before the k-th succeeds with listing
fragments and the fetch of page `start+k` succeeds but the listing selector
finds zero fragments, the loop halts at that page without error, returning
the records accumulated from the earlier pages; page `start+k` is the last
page requested, so no request is issued for any later page. (A page whose
fragments are found but all fail to parse does not halt the loop.) -/
theorem C7_zero_listings_halt {α : Type} (fetch : Nat → FetchResult α)
    (parse : α → Option Record) (cards : Nat → List α) (start k n : Nat)
    (jobs : List Record)
    (hsucc : ∀ j < k, fetch (start + j) = .success (cards j) ∧ (cards j).isEmpty = false)
    (hempty : fetch (start + k) = .success ([] : List α)) (hk : k < n) :
    (scrape_pages fetch parse start n jobs).1 =
      jobs ++ ((List.range k).map (fun j => (cards j).filterMap parse)).flatten ∧
    (scrape_pages fetch parse start n jobs).2 = List.range' start (k + 1) := by
  apply scrape_pages_stops fetch parse k cards start n jobs hsucc ?_ hk
  simp [stopsLoop, hempty]

/-- Witness for the amended C7: page 0 succeeds with one fragment, page 1
succeeds with zero fragments — the loop halts at page 1, returning page 0's
record, with no request beyond page 1. -/
theorem C7_witness :
    (IndeedScraper.scrape_jobs fetchEmptyAt1 (fun _ => some recDS) 2 []).1 = [recDS] ∧
    (IndeedScraper.scrape_jobs fetchEmptyAt1 (fun _ => some recDS) 2 []).2 = [0, 1] := by
  have h := C7_zero_listings_halt fetchEmptyAt1 (fun _ => some recDS) (fun _ => [0])
    0 1 2 []
    (fun j hj => by
      have hj0 : j = 0 := by omega
      subst hj0
      exact ⟨rfl, rfl⟩)
    rfl (by omega)
  constructor
  · show (scrape_pages fetchEmptyAt1 (fun _ => some recDS) 0 2 []).1 = [recDS]
    rw [h.1]; decide
  · show (scrape_pages fetchEmptyAt1 (fun _ => some recDS) 0 2 []).2 = [0, 1]
    rw [h.2]; decide

/-! ### Merge lemmas -/

theorem dropDupAux_nodup_and_unseen (l : List Record) :
    ∀ seen : List Key,
      ((dropDupAux seen l).map keyOf).Nodup ∧
      ∀ r ∈ dropDupAux seen l, keyOf r ∉ seen := by
  induction l with
  | nil => intro seen; exact ⟨List.nodup_nil, by simp [dropDupAux]⟩
  | cons r rs ih =>
    intro seen
    by_cases h : keyOf r ∈ seen
    · rw [dropDupAux, if_pos h]
      exact ih seen
    · rw [dropDupAux, if_neg h]
      obtain ⟨hnd, hun⟩ := ih (keyOf r :: seen)
      refine ⟨List.nodup_cons.mpr ⟨?_, hnd⟩, ?_⟩
      · intro hmem
        obtain ⟨u, hu, hku⟩ := List.mem_map.mp hmem
        exact hun u hu (hku ▸ List.mem_cons_self _ _)
      · intro u hu
        rcases List.mem_cons.mp hu with h1 | h1
        · rw [h1]; exact h
        · intro hu2
          exact hun u h1 (List.mem_cons_of_mem _ hu2)

theorem dropDupAux_find? (l : List Record) :
    ∀ (seen : List Key) (k : Key), k ∉ seen →
      (dropDupAux seen l).find? (fun r => keyOf r = k) =
        l.find? (fun r => keyOf r = k) := by
  induction l with
  | nil => intro seen k _; rfl
  | cons r rs ih =>
    intro seen k hk
    by_cases h : keyOf r ∈ seen
    · rw [dropDupAux, if_pos h]
      have hne : ¬(keyOf r = k) := fun he => hk (he ▸ h)
      rw [List.find?_cons_of_neg _ (by simpa using hne)]
      exact ih seen k hk
    · rw [dropDupAux, if_neg h]
      by_cases he : keyOf r = k
      · rw [List.find?_cons_of_pos _ (by simpa using he),
          List.find?_cons_of_pos _ (by simpa using he)]
      · rw [List.find?_cons_of_neg _ (by simpa using he),
          List.find?_cons_of_neg _ (by simpa using he)]
        refine ih (keyOf r :: seen) k ?_
        intro hmem
        rcases List.mem_cons.mp hmem with h1 | h1
        · exact he h1.symm
        · exact hk h1

theorem drop_duplicates_keys_nodup (l : List Record) :
    ((drop_duplicates l).map keyOf).Nodup :=
  (dropDupAux_nodup_and_unseen l []).1

theorem drop_duplicates_find? (l : List Record) (k : Key) :
    (drop_duplicates l).find? (fun r => keyOf r = k) =
      l.find? (fun r => keyOf r = k) :=
  dropDupAux_find? l [] k (List.not_mem_nil k)

/-- C2: the merge utility warns about exactly the missing paths (in input
order) and skips them; on two existing batches B1 and B2 it concatenates
them in input order, removes duplicates by the identity key keeping the
first occurrence, and reports |B1|+|B2| minus the merged size as the
duplicate count; the merged result has no two records with the same key, a
key occurs in it iff it occurs in B1 ++ B2, and the record written for each
key is the first occurrence of that key in B1 ++ B2. -/
theorem C2_merge_two_batches (files : List (String × Option (List Record)))
    (p₁ p₂ : String) (B₁ B₂ : List Record) :
    (merge_multiple_sources files).1 =
      (files.filter (fun f => f.2.isNone)).map Prod.fst ∧
    merge_multiple_sources [(p₁, some B₁), (p₂, some B₂)] =
      ([], some (drop_duplicates (B₁ ++ B₂),
        (B₁.length + B₂.length) - (drop_duplicates (B₁ ++ B₂)).length)) ∧
    ((drop_duplicates (B₁ ++ B₂)).map keyOf).Nodup ∧
    (∀ k : Key, (drop_duplicates (B₁ ++ B₂)).find? (fun r => keyOf r = k) =
      (B₁ ++ B₂).find? (fun r => keyOf r = k)) := by
  refine ⟨?_, ?_, drop_duplicates_keys_nodup _, fun k => drop_duplicates_find? _ k⟩
  · by_cases hc : (files.filterMap Prod.snd).isEmpty <;>
      simp [merge_multiple_sources, hc]
  · simp [merge_multiple_sources]

/-- C10: when every input path is missing, the merge utility still warns
about each path, reads nothing, writes no output file and returns the null
result (`none`) rather than an empty dataset. -/
theorem C10_all_paths_missing (files : List (String × Option (List Record)))
    (h : ∀ f ∈ files, f.2 = none) :
    merge_multiple_sources files = (files.map Prod.fst, none) := by
  have hfil : files.filter (fun f => f.2.isNone) = files :=
    List.filter_eq_self.mpr (fun f hf => by rw [h f hf]; rfl)
  have hfm : files.filterMap Prod.snd = [] :=
    List.filterMap_eq_nil_iff.mpr (fun f hf => h f hf)
  simp [merge_multiple_sources, hfil, hfm]

/-- Witness for C10 at two concrete missing paths. -/
theorem C10_witness :
    merge_multiple_sources [("data/raw/a.csv", none), ("data/raw/b.csv", none)] =
      (["data/raw/a.csv", "data/raw/b.csv"], none) := by
  have h := C10_all_paths_missing [("data/raw/a.csv", none), ("data/raw/b.csv", none)]
    (by intro f hf; rcases List.mem_cons.mp hf with h1 | h1
        · rw [h1]
        · rw [List.mem_singleton.mp h1])
  simpa using h


/-! ### Deduplication lemmas -/

theorem natMin_def (a b : Nat) : Nat.min a b = if a ≤ b then a else b := rfl

theorem minOfIds_eq_none_iff (l : List Nat) : minOfIds l = none ↔ l = [] := by
  cases l with
  | nil => simp [minOfIds]
  | cons i is =>
    simp only [minOfIds]
    cases minOfIds is <;> simp

theorem minOfIds_mem : ∀ {l : List Nat} {m : Nat}, minOfIds l = some m → m ∈ l := by
  intro l
  induction l with
  | nil => intro m h; simp [minOfIds] at h
  | cons i is ih =>
    intro m h
    cases his : minOfIds is with
    | none =>
      rw [minOfIds, his] at h
      have h2 : i = m := by injection h
      rw [← h2]
      exact List.mem_cons_self _ _
    | some m' =>
      rw [minOfIds, his] at h
      have h2 : Nat.min i m' = m := by injection h
      rw [natMin_def] at h2
      by_cases hc : i ≤ m'
      · rw [if_pos hc] at h2
        rw [← h2]
        exact List.mem_cons_self _ _
      · rw [if_neg hc] at h2
        exact List.mem_cons_of_mem _ (h2 ▸ ih his)

theorem minOfIds_le : ∀ {l : List Nat} {m : Nat}, minOfIds l = some m →
    ∀ x ∈ l, m ≤ x := by
  intro l
  induction l with
  | nil => intro m h; simp [minOfIds] at h
  | cons i is ih =>
    intro m h x hx
    cases his : minOfIds is with
    | none =>
      have hisnil : is = [] := (minOfIds_eq_none_iff is).mp his
      subst hisnil
      rw [minOfIds, his] at h
      have h2 : i = m := by injection h
      have h3 : x = i := List.mem_singleton.mp hx
      omega
    | some m' =>
      rw [minOfIds, his] at h
      have h2 : Nat.min i m' = m := by injection h
      rw [natMin_def] at h2
      rcases List.mem_cons.mp hx with hxi | hxi
      · by_cases hc : i ≤ m'
        · rw [if_pos hc] at h2; omega
        · rw [if_neg hc] at h2; omega
      · have h4 := ih his x hxi
        by_cases hc : i ≤ m'
        · rw [if_pos hc] at h2; omega
        · rw [if_neg hc] at h2; omega

theorem minOfIds_eq_some_of : ∀ {l : List Nat} {m : Nat}, m ∈ l →
    (∀ x ∈ l, m ≤ x) → minOfIds l = some m := by
  intro l
  induction l with
  | nil => intro m hm _; simp at hm
  | cons i is ih =>
    intro m hm hle
    cases his : minOfIds is with
    | none =>
      have hisnil : is = [] := (minOfIds_eq_none_iff is).mp his
      subst hisnil
      have hmi : m = i := List.mem_singleton.mp hm
      subst hmi
      simp [minOfIds]
    | some m' =>
      have hmi : m ≤ i := hle i (List.mem_cons_self _ _)
      rw [minOfIds, his]
      show some (Nat.min i m') = some m
      rcases List.mem_cons.mp hm with hm1 | hm1
      · have him' : i ≤ m' := hm1 ▸ hle m' (List.mem_cons_of_mem _ (minOfIds_mem his))
        rw [natMin_def, if_pos him', hm1]
      · have hmin : minOfIds is = some m :=
          ih hm1 (fun x hx => hle x (List.mem_cons_of_mem _ hx))
        rw [his] at hmin
        have hm'm : m' = m := by injection hmin
        rw [hm'm, natMin_def]
        by_cases hc : i ≤ m
        · have him : i = m := Nat.le_antisymm hc hmi
          rw [if_pos hc, him]
        · rw [if_neg hc]

/-- With pairwise-distinct ids (the PRIMARY KEY guarantee), a row of the
table is kept by the dedup DELETE iff its id is the MIN(id) of its own key
group. -/
theorem keptRow_iff_of_nodup {rows : List Row} (hnd : (rows.map Row.id).Nodup)
    {r : Row} (hr : r ∈ rows) :
    keptRow rows r = true ↔ groupMinId rows (rowKey r) = some r.id := by
  constructor
  · intro h
    rw [keptRow, List.any_eq_true] at h
    obtain ⟨s, hs, hmin⟩ := h
    rw [decide_eq_true_eq] at hmin
    rw [groupMinId] at hmin
    obtain ⟨t, ht, htid⟩ := List.mem_map.mp (minOfIds_mem hmin)
    obtain ⟨htrow, htkey⟩ := List.mem_filter.mp ht
    rw [decide_eq_true_eq] at htkey
    have htr : t = r := List.inj_on_of_nodup_map hnd htrow hr htid
    rw [← htr]
    rw [htkey, groupMinId, htid]
    exact hmin
  · intro h
    rw [keptRow, List.any_eq_true]
    exact ⟨r, hr, by rw [decide_eq_true_eq]; exact h⟩

/-- C1: with pairwise-distinct ids, deduplicate() keeps, within each group
of rows sharing an identical (job_title, company, location) triple, exactly
the row whose id is the group's minimum, deleting every other row, and
returns the number of rows deleted; in particular, on a fresh store holding
the 3 scenario records — two sharing the identity key — it returns 1 and a
subsequent queryAll() returns 2 records. -/
theorem C1_deduplicate_keeps_min_id (db : DB) (hnd : (db.rows.map Row.id).Nodup) :
    (∀ r : Row, r ∈ (remove_duplicates db).1.rows ↔
      (r ∈ db.rows ∧ groupMinId db.rows (rowKey r) = some r.id)) ∧
    (remove_duplicates db).2 =
      db.rows.length - (remove_duplicates db).1.rows.length ∧
    (remove_duplicates dbScenario).2 = 1 ∧
    (get_all_jobs (remove_duplicates dbScenario).1).length = 2 := by
  refine ⟨?_, rfl, by decide, by decide⟩
  intro r
  show r ∈ db.rows.filter (keptRow db.rows) ↔ _
  rw [List.mem_filter]
  constructor
  · rintro ⟨hr, hk⟩
    exact ⟨hr, (keptRow_iff_of_nodup hnd hr).mp hk⟩
  · rintro ⟨hr, hk⟩
    exact ⟨hr, (keptRow_iff_of_nodup hnd hr).mpr hk⟩

/-- Witness for C1: the end-to-end scenario store (ids 1, 2, 3) reports 1
row deleted and queryAll then returns 2 records. -/
theorem C1_witness :
    (remove_duplicates dbScenario).2 = 1 ∧
    (get_all_jobs (remove_duplicates dbScenario).1).length = 2 :=
  ⟨(C1_deduplicate_keeps_min_id dbScenario (by decide)).2.2.1,
   (C1_deduplicate_keeps_min_id dbScenario (by decide)).2.2.2⟩

/-- Every row surviving one dedup pass also survives a second one. -/
theorem keptRow_filter_self (rows : List Row) :
    ∀ r ∈ rows.filter (keptRow rows),
      keptRow (rows.filter (keptRow rows)) r = true := by
  intro r hr
  obtain ⟨hrm, hrk⟩ := List.mem_filter.mp hr
  rw [keptRow, List.any_eq_true] at hrk
  obtain ⟨s, hs, hmin⟩ := hrk
  rw [decide_eq_true_eq, groupMinId] at hmin
  obtain ⟨t, ht, htid⟩ := List.mem_map.mp (minOfIds_mem hmin)
  obtain ⟨htrow, htkey⟩ := List.mem_filter.mp ht
  rw [decide_eq_true_eq] at htkey
  have htkept : keptRow rows t = true := by
    rw [keptRow, List.any_eq_true]
    refine ⟨s, hs, ?_⟩
    rw [decide_eq_true_eq, groupMinId, htid]
    exact hmin
  have htK : t ∈ rows.filter (keptRow rows) := List.mem_filter.mpr ⟨htrow, htkept⟩
  have hgm : groupMinId (rows.filter (keptRow rows)) (rowKey t) = some t.id := by
    rw [groupMinId]
    apply minOfIds_eq_some_of
    · exact List.mem_map.mpr ⟨t, List.mem_filter.mpr ⟨htK, by simp⟩, rfl⟩
    · intro x hx
      obtain ⟨u, hu, huid⟩ := List.mem_map.mp hx
      obtain ⟨huK, hukey⟩ := List.mem_filter.mp hu
      obtain ⟨hurow, _⟩ := List.mem_filter.mp huK
      rw [decide_eq_true_eq] at hukey
      have huG : u.id ∈ (rows.filter (fun v => rowKey v = rowKey s)).map Row.id := by
        refine List.mem_map.mpr ⟨u, List.mem_filter.mpr ⟨hurow, ?_⟩, rfl⟩
        rw [decide_eq_true_eq, hukey, htkey]
      have hle := minOfIds_le hmin u.id huG
      omega
  rw [keptRow, List.any_eq_true]
  refine ⟨t, htK, ?_⟩
  rw [decide_eq_true_eq, hgm, htid]

/-- C4: deduplicate() is idempotent — for every store state, an immediately
following second call deletes no rows, returns 0 and leaves the store
unchanged. -/
theorem C4_deduplicate_idempotent (db : DB) :
    remove_duplicates (remove_duplicates db).1 = ((remove_duplicates db).1, 0) := by
  have hfix : (db.rows.filter (keptRow db.rows)).filter
      (keptRow (db.rows.filter (keptRow db.rows))) =
        db.rows.filter (keptRow db.rows) :=
    List.filter_eq_self.mpr (keptRow_filter_self db.rows)
  show (⟨(db.rows.filter (keptRow db.rows)).filter
      (keptRow (db.rows.filter (keptRow db.rows))), db.nextId⟩,
    (db.rows.filter (keptRow db.rows)).length -
      ((db.rows.filter (keptRow db.rows)).filter
        (keptRow (db.rows.filter (keptRow db.rows)))).length) =
    ((remove_duplicates db).1, 0)
  rw [hfix]
  simp [remove_duplicates]

/-! ### clean_text lemmas -/

theorem dropWhile_eq_self_of_all {α : Type} (p : α → Bool) (l : List α)
    (h : ∀ x ∈ l, p x = false) : l.dropWhile p = l := by
  cases l with
  | nil => rfl
  | cons a l =>
    rw [List.dropWhile_cons, h a (List.mem_cons_self _ _)]
    simp

theorem dropWhile_append_of_exists {α : Type} (p : α → Bool) (A B : List α)
    (h : ∃ x ∈ A, p x = false) :
    (A ++ B).dropWhile p = A.dropWhile p ++ B := by
  induction A with
  | nil => obtain ⟨x, hx, _⟩ := h; simp at hx
  | cons a A ih =>
    cases hp : p a with
    | true =>
      have h' : ∃ x ∈ A, p x = false := by
        obtain ⟨x, hx, hpx⟩ := h
        rcases List.mem_cons.mp hx with h1 | h1
        · subst h1; rw [hp] at hpx; cases hpx
        · exact ⟨x, h1, hpx⟩
      simp only [List.cons_append, List.dropWhile_cons, hp, if_true]
      exact ih h'
    | false =>
      simp [List.dropWhile_cons, hp]

theorem dropWhile_append_of_all {α : Type} (p : α → Bool) (A B : List α)
    (h : ∀ x ∈ A, p x = true) :
    (A ++ B).dropWhile p = B.dropWhile p := by
  induction A with
  | nil => rfl
  | cons a A ih =>
    have ha := h a (List.mem_cons_self _ _)
    simp only [List.cons_append, List.dropWhile_cons, ha, if_true]
    exact ih (fun x hx => h x (List.mem_cons_of_mem _ hx))

theorem dropWhile_head_false {α : Type} (p : α → Bool) :
    ∀ (l : List α) (a : α) (t : List α), l.dropWhile p = a :: t → p a = false := by
  intro l
  induction l with
  | nil => intro a t h; simp at h
  | cons b l ih =>
    intro a t h
    cases hb : p b with
    | true =>
      rw [List.dropWhile_cons, hb] at h
      simp at h
      exact ih a t h
    | false =>
      rw [List.dropWhile_cons, hb] at h
      simp at h
      rw [← h.1]
      exact hb

theorem rstrip_append_of_exists (A B : List Char) (h : ∃ x ∈ B, isPySpace x = false) :
    rstrip (A ++ B) = A ++ rstrip B := by
  rw [rstrip, rstrip, List.reverse_append]
  rw [dropWhile_append_of_exists _ _ _ (by
    obtain ⟨x, hx, hpx⟩ := h
    exact ⟨x, List.mem_reverse.mpr hx, hpx⟩)]
  rw [List.reverse_append, List.reverse_reverse]

theorem rstrip_append_of_all (A B : List Char) (h : ∀ x ∈ B, isPySpace x = true) :
    rstrip (A ++ B) = rstrip A := by
  rw [rstrip, rstrip, List.reverse_append]
  rw [dropWhile_append_of_all _ _ _ (fun x hx => h x (List.mem_reverse.mp hx))]

theorem rstrip_of_all (A : List Char) (h : ∀ x ∈ A, isPySpace x = false) :
    rstrip A = A := by
  rw [rstrip, dropWhile_eq_self_of_all _ _ (fun x hx => h x (List.mem_reverse.mp hx)),
    List.reverse_reverse]

theorem collapseAux_true_eq (cs : List Char) :
    collapseAux true cs = collapseAux false (cs.dropWhile isPySpace) := by
  induction cs with
  | nil => rfl
  | cons c cs ih =>
    cases h : isPySpace c with
    | true => simp [collapseAux, h, List.dropWhile_cons, ih]
    | false => simp [collapseAux, h, List.dropWhile_cons]

theorem collapseAux_false_app (w r : List Char) (hw : ∀ c ∈ w, isPySpace c = false) :
    collapseAux false (w ++ r) = w ++ collapseAux false r := by
  induction w with
  | nil => rfl
  | cons c w ih =>
    have hc := hw c (List.mem_cons_self _ _)
    simp [collapseAux, hc, ih (fun x hx => hw x (List.mem_cons_of_mem _ hx))]

theorem wordsOf_dropWhile (s : List Char) :
    wordsOf (s.dropWhile isPySpace) = wordsOf s := by
  induction s with
  | nil => rfl
  | cons c cs ih =>
    cases hc : isPySpace c with
    | true =>
      have h1 : (c :: cs).dropWhile isPySpace = cs.dropWhile isPySpace := by
        simp [List.dropWhile_cons, hc]
      have h2 : wordsOf (c :: cs) = wordsOf cs := by rw [wordsOf]; simp [hc]
      rw [h1, h2, ih]
    | false =>
      have h1 : (c :: cs).dropWhile isPySpace = c :: cs := by
        simp [List.dropWhile_cons, hc]
      rw [h1]

theorem joinWords_cons_of_ne_nil (w : List Char) (ws : List (List Char)) (h : ws ≠ []) :
    joinWords (w :: ws) = w ++ ' ' :: joinWords ws := by
  cases ws with
  | nil => exact absurd rfl h
  | cons w' ws' => rfl

/-- The algorithmic clean (collapse runs, then strip) equals the spec-side
clean (whitespace-delimited words joined by single spaces). -/
theorem wordsOf_nil : wordsOf [] = [] := by rw [wordsOf]

theorem strip_collapse_aux :
    ∀ (n : Nat) (s : List Char), s.length ≤ n →
      strip (collapseAux false s) = joinWords (wordsOf s) := by
  intro n
  induction n with
  | zero =>
    intro s hs
    have hnil : s = [] := List.eq_nil_of_length_eq_zero (Nat.le_zero.mp hs)
    subst hnil
    rw [wordsOf_nil]
    rfl
  | succ n ih =>
    intro s hs
    match s with
    | [] => rw [wordsOf_nil]; rfl
    | c :: cs =>
      have hcs : cs.length ≤ n := by
        simp only [List.length_cons] at hs
        omega
      cases hc : isPySpace c with
      | true =>
        have e1 : collapseAux false (c :: cs) = ' ' :: collapseAux true cs := by
          simp [collapseAux, hc]
        have e2 : strip (' ' :: collapseAux false (cs.dropWhile isPySpace)) =
            strip (collapseAux false (cs.dropWhile isPySpace)) := by
          rw [strip, strip, lstrip, lstrip, List.dropWhile_cons]
          have hsp : isPySpace ' ' = true := rfl
          rw [hsp]
          simp
        have ht : (cs.dropWhile isPySpace).length ≤ n :=
          le_trans (List.IsSuffix.sublist (List.dropWhile_suffix _)).length_le hcs
        have e3 : wordsOf (c :: cs) = wordsOf cs := by rw [wordsOf]; simp [hc]
        rw [e1, collapseAux_true_eq, e2, ih _ ht, wordsOf_dropWhile, e3]
      | false =>
        have hsplit : cs = cs.takeWhile (fun d => !isPySpace d) ++
            cs.dropWhile (fun d => !isPySpace d) :=
          (List.takeWhile_append_dropWhile _ _).symm
        have hwall : ∀ x ∈ cs.takeWhile (fun d => !isPySpace d), isPySpace x = false := by
          intro x hx
          have hx2 := List.mem_takeWhile_imp hx
          simpa using hx2
        have e0 : collapseAux false (c :: cs) = c :: collapseAux false cs := by
          simp [collapseAux, hc]
        have e1 : collapseAux false cs = cs.takeWhile (fun d => !isPySpace d) ++
            collapseAux false (cs.dropWhile (fun d => !isPySpace d)) := by
          conv_lhs => rw [hsplit]
          exact collapseAux_false_app _ _ hwall
        have ew : wordsOf (c :: cs) = (c :: cs.takeWhile (fun d => !isPySpace d)) ::
            wordsOf (cs.dropWhile (fun d => !isPySpace d)) := by
          rw [wordsOf]
          simp [hc]
        have hallcw : ∀ x ∈ c :: cs.takeWhile (fun d => !isPySpace d),
            isPySpace x = false := by
          intro x hx
          rcases List.mem_cons.mp hx with h1 | h1
          · rw [h1]; exact hc
          · exact hwall x h1
        cases hr : cs.dropWhile (fun d => !isPySpace d) with
        | nil =>
          rw [e0, e1, hr]
          show strip (c :: (cs.takeWhile (fun d => !isPySpace d) ++ [])) = _
          rw [List.append_nil]
          have hl : strip (c :: cs.takeWhile (fun d => !isPySpace d)) =
              rstrip (c :: cs.takeWhile (fun d => !isPySpace d)) := by
            rw [strip, lstrip, List.dropWhile_cons, hc]
            simp [rstrip]
          rw [hl, rstrip_of_all _ hallcw, ew, hr, wordsOf_nil]
          rfl
        | cons d r' =>
          have hd : isPySpace d = true := by
            have hdf := dropWhile_head_false (fun d => !isPySpace d) cs d r' hr
            simpa using hdf
          have e2 : collapseAux false (d :: r') = ' ' :: collapseAux true r' := by
            simp [collapseAux, hd]
          have ht : (r'.dropWhile isPySpace).length ≤ n := by
            have h1 : (r'.dropWhile isPySpace).length ≤ r'.length :=
              (List.IsSuffix.sublist (List.dropWhile_suffix _)).length_le
            have h2 : (cs.dropWhile (fun d => !isPySpace d)).length ≤ cs.length :=
              (List.IsSuffix.sublist (List.dropWhile_suffix _)).length_le
            rw [hr] at h2
            simp only [List.length_cons] at h2
            omega
          have ewr : wordsOf (d :: r') = wordsOf (r'.dropWhile isPySpace) := by
            rw [wordsOf]
            simp [hd, wordsOf_dropWhile]
          rw [e0, e1, hr, e2, collapseAux_true_eq]
          cases htc : r'.dropWhile isPySpace with
          | nil =>
            show strip (c :: (cs.takeWhile (fun d => !isPySpace d) ++
              (' ' :: collapseAux false []))) = _
            have hshape : c :: (cs.takeWhile (fun d => !isPySpace d) ++
                (' ' :: collapseAux false [])) =
                (c :: cs.takeWhile (fun d => !isPySpace d)) ++ [' '] := by
              simp [collapseAux]
            rw [hshape]
            have hl : strip ((c :: cs.takeWhile (fun d => !isPySpace d)) ++ [' ']) =
                rstrip ((c :: cs.takeWhile (fun d => !isPySpace d)) ++ [' ']) := by
              rw [strip, lstrip, List.cons_append, List.dropWhile_cons, hc]
              simp [rstrip]
            rw [hl, rstrip_append_of_all _ _ (by
              intro x hx
              rw [List.mem_singleton.mp hx]
              rfl)]
            rw [rstrip_of_all _ hallcw, ew, hr, ewr, htc, wordsOf_nil]
            rfl
          | cons e t' =>
            have he : isPySpace e = false := dropWhile_head_false isPySpace r' e t' htc
            have e3 : collapseAux false (e :: t') = e :: collapseAux false t' := by
              simp [collapseAux, he]
            have hmem : ∃ x ∈ collapseAux false (e :: t'), isPySpace x = false := by
              rw [e3]
              exact ⟨e, List.mem_cons_self _ _, he⟩
            have hshape : c :: (cs.takeWhile (fun d => !isPySpace d) ++
                (' ' :: collapseAux false (e :: t'))) =
                ((c :: cs.takeWhile (fun d => !isPySpace d)) ++ [' ']) ++
                  collapseAux false (e :: t') := by
              simp
            rw [hshape]
            have hl : strip (((c :: cs.takeWhile (fun d => !isPySpace d)) ++ [' ']) ++
                collapseAux false (e :: t')) =
                rstrip (((c :: cs.takeWhile (fun d => !isPySpace d)) ++ [' ']) ++
                  collapseAux false (e :: t')) := by
              rw [strip, lstrip, List.cons_append, List.cons_append, List.dropWhile_cons, hc]
              simp [rstrip]
            rw [hl, rstrip_append_of_exists _ _ hmem]
            have hstrip_eq : rstrip (collapseAux false (e :: t')) =
                strip (collapseAux false (e :: t')) := by
              rw [strip, lstrip, e3, List.dropWhile_cons, he]
              simp
            rw [hstrip_eq, ← htc, ih _ ht, ew, hr, ewr]
            have hne : wordsOf (r'.dropWhile isPySpace) ≠ [] := by
              rw [htc, wordsOf]
              simp [he]
            rw [joinWords_cons_of_ne_nil _ _ hne]
            simp

/-- C8: clean is a pure function that collapses every whitespace run to a
single space and trims leading and trailing whitespace — for every input it
equals the spec-side clean (the whitespace-delimited words joined by single
spaces) — an absent (None) or empty input yields the empty string, and
clean(" a   b\n c ") = "a b c". -/
theorem C8_clean_text_spec :
    clean_text none = [] ∧
    clean_text (some []) = [] ∧
    (∀ s : List Char, clean_text (some s) = specClean s) ∧
    clean_text (some [' ', 'a', ' ', ' ', ' ', 'b', '\n', ' ', 'c', ' ']) =
      ['a', ' ', 'b', ' ', 'c'] := by
  refine ⟨rfl, rfl, ?_, by decide⟩
  intro s
  cases s with
  | nil =>
    show ([] : List Char) = specClean []
    rw [specClean, wordsOf_nil]
    rfl
  | cons c cs =>
    show strip (collapseAux false (c :: cs)) = joinWords (wordsOf (c :: cs))
    exact strip_collapse_aux (c :: cs).length (c :: cs) (Nat.le_refl _)
